import Mathlib

/-!
Verification of the WiMAX uplink job scheduling core (ns-3, `src/wimax/model/ul-job.h`
and the MBQoS uplink scheduler it supports).

The first part of this file is a shallow embedding of the code that is present in the
source tree: the `UlJob` / `PriorityUlJob` data model and the two comparison functors
`SortProcess` and `SortProcessPtr` from `ul-job.h`, transcribed statement by statement.
C++ `Time` values are embedded as `Int` (nanosecond ticks), `uint32_t` sizes as `Nat`,
and the `int32_t` backlog read as `Int`.  A `Ptr<T>` dereference is the identity in this
embedding, so `SortProcessPtr` acts on the same record type as `SortProcess`.

The second part models the scheduler round (deadline sweep, ordering, greedy
allocation, periodic re-issue) and the pending-set `submit` operation.  Those routines
are not part of the given sources (only `ul-job.h` is), so they are modelled from the
specification text; each such definition says so in its doc comment.
-/

namespace UlSched

/-- Request type enumeration `ReqType` from `ul-job.h`. -/
inductive ReqType
  | DATA
  | UNICAST_POLLING
  deriving DecidableEq, Repr

/-- Job priority enumeration `UlJob::JobPriority` from `ul-job.h`.
    The C++ enum assigns `LOW = 0`, `INTERMEDIATE = 1`, `HIGH = 2`. -/
inductive JobPriority
  | LOW
  | INTERMEDIATE
  | HIGH
  deriving DecidableEq, Repr

/-- Numeric value of the C++ enum `UlJob::JobPriority`. -/
def JobPriority.toInt : JobPriority → Int
  | .LOW => 0
  | .INTERMEDIATE => 1
  | .HIGH => 2

/-- `ServiceFlowRecord`: the slice of the per-flow record the comparator reads,
    namely `GetBacklogged()` (an `int32_t` in the code, embedded as `Int`). -/
structure ServiceFlowRecord where
  backlogged : Int
  deriving DecidableEq, Repr

/-- `ServiceFlow`: the slice the comparator reads, namely `GetRecord()`. -/
structure ServiceFlow where
  record : ServiceFlowRecord
  deriving DecidableEq, Repr

/-- `UlJob` data fields from `ul-job.h` (`m_releaseTime`, `m_period`, `m_deadline`,
    `m_size`, `m_schedulingType` is irrelevant to the comparators and omitted,
    `m_serviceFlow`).  `Time` is embedded as `Int`, `uint32_t` as `Nat`. -/
structure UlJob where
  releaseTime : Int
  period : Int
  deadline : Int
  size : Nat
  reqType : ReqType
  serviceFlow : ServiceFlow
  deriving DecidableEq, Repr

/-- `PriorityUlJob` from `ul-job.h`: an `int m_priority` paired with a job. -/
structure PriorityUlJob where
  priority : Int
  job : UlJob
  deriving DecidableEq, Repr

/-- `SortProcess::operator()` from `ul-job.h`, transcribed exactly.  Note that the
    source assigns BOTH `leftBacklogged` and `rightBacklogged` from
    `left.GetUlJob()->GetServiceFlow()->GetRecord()->GetBacklogged()`. -/
def SortProcess (left right : PriorityUlJob) : Bool :=
  if left.priority < right.priority then
    true
  else if left.priority = right.priority then
    let leftBacklogged : Int := left.job.serviceFlow.record.backlogged
    let rightBacklogged : Int := left.job.serviceFlow.record.backlogged
    if leftBacklogged ≤ rightBacklogged then true else false
  else
    false

/-- `SortProcessPtr::operator()` from `ul-job.h`, transcribed exactly; `Ptr`
    dereference is the identity in this embedding.  As in the source, both backlog
    reads go through `left`. -/
def SortProcessPtr (left right : PriorityUlJob) : Bool :=
  if left.priority < right.priority then
    true
  else if left.priority = right.priority then
    let leftBacklogged : Int := left.job.serviceFlow.record.backlogged
    let rightBacklogged : Int := left.job.serviceFlow.record.backlogged
    if leftBacklogged ≤ rightBacklogged then true else false
  else
    false

/-- A comparator following the spec text of §4.3 word for word, for comparison with
    the transcription of the source: when tiers (priorities) are equal, the job whose
    OWN flow carries the strictly larger backlog sorts first, reading each side's
    backlog from that side's flow. -/
def specOrderingLess (left right : PriorityUlJob) : Bool :=
  if left.priority < right.priority then
    true
  else if left.priority = right.priority then
    left.job.serviceFlow.record.backlogged > right.job.serviceFlow.record.backlogged
  else
    false

/-! ## Scheduler model

The Scheduler / PendingJobSet engine (deadline sweep, per-round ordering, greedy
allocation, periodic re-issue, `submit`) lives in the uplink-scheduler translation
unit, which is not among the given sources; only its comparator (`ul-job.h` above) is.
The definitions below are therefore modelled from the specification text (§3–§4.5),
faithful to its words, and theorems about them say so. -/

/-- Modelled from the spec: the three priority tiers of §4.2, `classify(job) →
    \x7bHIGH, INTERMEDIATE, LOW\x7d`. -/
inductive Tier
  | HIGH
  | INTERMEDIATE
  | LOW
  deriving DecidableEq, Repr

/-- Modelled from the spec: §4.3 "Primary key: priority tier, HIGH < INTERMEDIATE <
    LOW in scheduling precedence (HIGH scheduled first)".  The comparator in the
    source sorts ascending integer priority, so the tier with highest scheduling
    precedence is given the smallest rank. -/
def Tier.rank : Tier → Int
  | .HIGH => 0
  | .INTERMEDIATE => 1
  | .LOW => 2

/-- `a` has strictly higher scheduling precedence than `b` (is scheduled first). -/
def Tier.precedes (a b : Tier) : Prop := a.rank < b.rank

instance (a b : Tier) : Decidable (a.precedes b) := by
  unfold Tier.precedes; infer_instance

/-- Modelled from the spec: the scheduler-level view of a Job (§3).  `id` is the
    stable `JobId` handle returned by `submit`; `backlog` is the current backlog of
    the owning service flow; `provision` is the flow's configured per-period
    provision used for a periodic successor's size (§4.5). -/
structure SJob where
  id : Nat
  releaseTime : Int
  period : Int
  deadline : Int
  size : Nat
  tier : Tier
  backlog : Int
  provision : Nat
  deriving DecidableEq, Repr

/-- Modelled from the spec: the corrected Ordering of §4.3 over scheduler-level jobs,
    primary key the tier rank, secondary key (tiers equal) the strictly larger
    current backlog of each side's own flow first. -/
def sLess (a b : SJob) : Bool :=
  if a.tier.rank < b.tier.rank then true
  else if a.tier.rank = b.tier.rank then a.backlog > b.backlog
  else false

/-- The non-strict companion of `sLess`, used to order the round's snapshot:
    `a` may come before `b` iff `b` is not strictly before `a`. -/
def sLe (a b : SJob) : Bool := !(sLess b a)

/-- Insert into a list ordered by `sLe`. -/
def insertLe (x : SJob) : List SJob → List SJob
  | [] => [x]
  | y :: ys => if sLe x y then x :: y :: ys else y :: insertLe x ys

/-- Modelled from the spec: `snapshotForRound()` ordering (§4.4) — sort the
    surviving pool with the Ordering comparator. -/
def sortJobs : List SJob → List SJob
  | [] => []
  | x :: xs => insertLe x (sortJobs xs)

/-- Result of the greedy allocation scan (§4.5 step 3): the grant records
    `(jobId, minislotsGranted)`, the successor jobs enqueued for fully granted
    periodic jobs, each paired with the retired job's id, the jobs left pending,
    and the next fresh `JobId`. -/
structure AllocResult where
  grants : List (Nat × Nat)
  succs : List (Nat × SJob)
  pending : List SJob
  nextId : Nat
  deriving DecidableEq, Repr

/-- Modelled from the spec: the successor enqueued when a periodic job is fully
    granted at time `now` (§4.5): fresh id, `releaseTime' = now + period`,
    `deadline' = releaseTime' + (deadline − releaseTime)`, size the flow's
    per-period provision. -/
def succOf (now : Int) (nextId : Nat) (j : SJob) : SJob :=
  { j with id := nextId
           releaseTime := now + j.period
           deadline := (now + j.period) + (j.deadline - j.releaseTime)
           size := j.provision }

/-- Modelled from the spec: greedy allocation (§4.5 step 3).  Scan the ordered
    sequence once; for each job grant `g = min(remainingBudget, job.size)`:
    `g = 0` stops the scan with the remaining jobs pending untouched; a full grant
    retires the job and, if `period > 0`, enqueues a successor with
    `releaseTime' = now + period`, `deadline' = releaseTime' + (deadline −
    releaseTime)` and size the flow's per-period provision; a partial grant
    decrements the size and leaves the job pending, deadline unchanged. -/
def allocate (now : Int) (nextId : Nat) (budget : Nat) : List SJob → AllocResult
  | [] => ⟨[], [], [], nextId⟩
  | j :: rest =>
    let g := min budget j.size
    if g = 0 then
      ⟨[], [], j :: rest, nextId⟩
    else if g = j.size then
      if j.period > 0 then
        let r := allocate now (nextId + 1) (budget - g) rest
        ⟨(j.id, g) :: r.grants, (j.id, succOf now nextId j) :: r.succs, r.pending, r.nextId⟩
      else
        let r := allocate now nextId (budget - g) rest
        ⟨(j.id, g) :: r.grants, r.succs, r.pending, r.nextId⟩
    else
      let r := allocate now nextId (budget - g) rest
      ⟨(j.id, g) :: r.grants, r.succs, { j with size := j.size - g } :: r.pending, r.nextId⟩

/-- Result of one scheduler round: the grant records, the ids of jobs whose
    `DeadlineMissed` notification was emitted, the pool carried to the next round
    (pending jobs plus enqueued successors), and the next fresh `JobId`. -/
structure RoundResult where
  grants : List (Nat × Nat)
  missed : List Nat
  succs : List (Nat × SJob)
  pool : List SJob
  nextId : Nat
  deriving DecidableEq, Repr

/-- Modelled from the spec: one round of the Scheduler (§4.5), given `now` and
    `budget`: (1) deadline sweep removing every job with `deadline < now` and
    emitting one `DeadlineMissed` per removed job, (2) ordering of the survivors,
    (3) greedy allocation. -/
def runRound (now : Int) (budget : Nat) (pool : List SJob) (nextId : Nat) : RoundResult :=
  let survivors := pool.filter (fun j => !(decide (j.deadline < now)))
  let missed := pool.filter (fun j => decide (j.deadline < now))
  let ordered := sortJobs survivors
  let r := allocate now nextId budget ordered
  ⟨r.grants, missed.map SJob.id, r.succs, r.pending ++ r.succs.map Prod.snd, r.nextId⟩

/-- Run a sequence of rounds, each given `(now, budget)`; returns the grant lists of
    the successive rounds. -/
def runRounds (pool : List SJob) (nextId : Nat) : List (Int × Nat) → List (List (Nat × Nat))
  | [] => []
  | (now, budget) :: rest =>
    let r := runRound now budget pool nextId
    r.grants :: runRounds r.pool r.nextId rest

/-- Total minislots granted in a round. -/
def sumGrants (gs : List (Nat × Nat)) : Nat := (gs.map (fun g => g.2)).sum

/-- Modelled from the spec: a `submitJob` descriptor (§6).  `size` is signed here
    because the validation rule of §7 speaks of `size ≤ 0`. -/
structure JobDescriptor where
  releaseTime : Int
  period : Int
  deadline : Int
  size : Int
  tier : Tier
  backlog : Int
  provision : Nat
  deriving DecidableEq, Repr

/-- The error taxonomy entry for malformed submissions (§7). -/
inductive SubmitError
  | InvalidJobError
  deriving DecidableEq, Repr

/-- Modelled from the spec: `submit(job) → JobId` on the PendingJobSet (§4.4, §7):
    a descriptor with `size ≤ 0` or `deadline < releaseTime` fails synchronously
    with `InvalidJobError` and the job never enters the pool; otherwise the job is
    inserted and a stable `JobId` is returned together with the updated pool and
    the next fresh id. -/
def submit (pool : List SJob) (nextId : Nat) (d : JobDescriptor) :
    Except SubmitError (Nat × List SJob × Nat) :=
  if d.size ≤ 0 ∨ d.deadline < d.releaseTime then
    .error .InvalidJobError
  else
    .ok (nextId,
         ⟨nextId, d.releaseTime, d.period, d.deadline, d.size.toNat, d.tier,
          d.backlog, d.provision⟩ :: pool,
         nextId + 1)

/-! ## Theorems about the source comparators -/

/-- C1: the claim requires the tie-break to read `a`'s backlog from `a`'s flow and
    `b`'s from `b`'s, so that with equal tiers and backlogs `5 > 3` we get
    `less(a, b) = true` and `less(b, a) = false`.  Evaluating the transcribed source
    at that input: both directions return `true`, because the source reads both
    backlog values from the left operand's flow; the spec-worded two-operand
    comparator agrees with the claim. -/
theorem sortProcess_backlog_aliasing_eval :
    SortProcess ⟨0, ⟨0, 0, 10, 4, .DATA, ⟨⟨5⟩⟩⟩⟩ ⟨0, ⟨0, 0, 10, 4, .DATA, ⟨⟨3⟩⟩⟩⟩ = true ∧
    SortProcess ⟨0, ⟨0, 0, 10, 4, .DATA, ⟨⟨3⟩⟩⟩⟩ ⟨0, ⟨0, 0, 10, 4, .DATA, ⟨⟨5⟩⟩⟩⟩ = true ∧
    specOrderingLess ⟨0, ⟨0, 0, 10, 4, .DATA, ⟨⟨5⟩⟩⟩⟩ ⟨0, ⟨0, 0, 10, 4, .DATA, ⟨⟨3⟩⟩⟩⟩ = true ∧
    specOrderingLess ⟨0, ⟨0, 0, 10, 4, .DATA, ⟨⟨3⟩⟩⟩⟩ ⟨0, ⟨0, 0, 10, 4, .DATA, ⟨⟨5⟩⟩⟩⟩ = false := by
  refine ⟨?_, ?_, ?_, ?_⟩ <;> decide

/-- C2: the claim (and the spec) require the comparator to be irreflexive:
    `less(a, a) = false` for every job.  Evaluating the transcribed source on a
    concrete job compared with itself returns `true`: with equal priorities the
    aliased backlog reads yield `leftBacklogged ≤ rightBacklogged` trivially, so the
    comparator is not irreflexive (and `less(a, b)` and `less(b, a)` are both `true`
    on any equal-priority pair). -/
theorem sortProcess_not_irreflexive_eval :
    SortProcess ⟨1, ⟨0, 0, 20, 8, .DATA, ⟨⟨7⟩⟩⟩⟩ ⟨1, ⟨0, 0, 20, 8, .DATA, ⟨⟨7⟩⟩⟩⟩ = true := by
  decide

/-- C9: whenever the two arguments have equal priorities, `SortProcess` returns
    `true` regardless of either side's service-flow backlog, because both backlog
    values it compares are read from the left argument's flow; in particular the
    result never depends on the right job's backlog. -/
theorem sortProcess_tie_always_true (a b : PriorityUlJob)
    (h : a.priority = b.priority) : SortProcess a b = true := by
  unfold SortProcess
  rw [h]
  simp

/-- Witness for C9 at a concrete equal-priority pair with different backlogs. -/
theorem sortProcess_tie_always_true_witness :
    SortProcess ⟨2, ⟨0, 0, 9, 3, .DATA, ⟨⟨100⟩⟩⟩⟩ ⟨2, ⟨0, 0, 9, 3, .DATA, ⟨⟨-4⟩⟩⟩⟩ = true :=
  sortProcess_tie_always_true ⟨2, ⟨0, 0, 9, 3, .DATA, ⟨⟨100⟩⟩⟩⟩ ⟨2, ⟨0, 0, 9, 3, .DATA, ⟨⟨-4⟩⟩⟩⟩ rfl

/-- C10: `SortProcess` and `SortProcessPtr` implement the same comparison: on every
    pair of `PriorityUlJob` values (the `Ptr` dereference being the identity in this
    embedding) the two functors return the same result. -/
theorem sortProcess_eq_sortProcessPtr (a b : PriorityUlJob) :
    SortProcess a b = SortProcessPtr a b := rfl

/-! ## Helper lemmas about the scheduler model -/

/-- `insertLe` permutes its input with the new element in front. -/
theorem insertLe_perm (x : SJob) (l : List SJob) : (insertLe x l).Perm (x :: l) := by
  induction l with
  | nil => exact List.Perm.refl _
  | cons y ys ih =>
    unfold insertLe
    split
    · exact List.Perm.refl _
    · exact (List.Perm.cons y ih).trans (List.Perm.swap x y ys)

/-- Sorting the snapshot is a permutation. -/
theorem sortJobs_perm (l : List SJob) : (sortJobs l).Perm l := by
  induction l with
  | nil => exact List.Perm.refl _
  | cons x xs ih => exact (insertLe_perm x (sortJobs xs)).trans (List.Perm.cons x ih)

/-- Fresh ids only move forward during allocation. -/
theorem allocate_nextId_le (now : Int) (jobs : List SJob) :
    ∀ (nid b : Nat), nid ≤ (allocate now nid b jobs).nextId := by
  induction jobs with
  | nil => intro nid b; simp [allocate]
  | cons j rest ih =>
    intro nid b
    simp only [allocate]
    split
    · simp
    · split
      · split
        · simpa using le_trans (Nat.le_succ nid) (ih (nid + 1) _)
        · simpa using ih nid _
      · simpa using ih nid _

/-- Every grant record's id is the id of a scanned job. -/
theorem allocate_grants_mem (now : Int) (jobs : List SJob) :
    ∀ (nid b : Nat), ∀ g ∈ (allocate now nid b jobs).grants, g.1 ∈ jobs.map SJob.id := by
  induction jobs with
  | nil => intro nid b g hg; simp [allocate] at hg
  | cons j rest ih =>
    intro nid b g hg
    simp only [allocate] at hg
    rw [List.map_cons]
    split at hg
    · simp at hg
    · split at hg
      · split at hg
        · simp only [List.mem_cons] at hg
          rcases hg with hg | hg
          · simp [hg]
          · exact List.mem_cons_of_mem _ (ih (nid + 1) _ g hg)
        · simp only [List.mem_cons] at hg
          rcases hg with hg | hg
          · simp [hg]
          · exact List.mem_cons_of_mem _ (ih nid _ g hg)
      · simp only [List.mem_cons] at hg
        rcases hg with hg | hg
        · simp [hg]
        · exact List.mem_cons_of_mem _ (ih nid _ g hg)

/-- Every job left pending by the scan has the id of a scanned job. -/
theorem allocate_pending_mem (now : Int) (jobs : List SJob) :
    ∀ (nid b : Nat), ∀ k ∈ (allocate now nid b jobs).pending, k.id ∈ jobs.map SJob.id := by
  induction jobs with
  | nil => intro nid b k hk; simp [allocate] at hk
  | cons j rest ih =>
    intro nid b k hk
    simp only [allocate] at hk
    rw [List.map_cons]
    split at hk
    · simp only [List.mem_cons] at hk
      rcases hk with hk | hk
      · simp [hk]
      · exact List.mem_cons_of_mem _ (List.mem_map_of_mem SJob.id hk)
    · split at hk
      · split at hk
        · simp only [List.mem_cons] at hk
          exact List.mem_cons_of_mem _ (ih (nid + 1) _ k hk)
        · simp only [List.mem_cons] at hk
          exact List.mem_cons_of_mem _ (ih nid _ k hk)
      · simp only [List.mem_cons] at hk
        rcases hk with hk | hk
        · simp [hk]
        · exact List.mem_cons_of_mem _ (ih nid _ k hk)

/-- Every successor enqueued by allocation carries a fresh id: at least the starting
    fresh id and below the resulting one. -/
theorem allocate_succs_id_bound (now : Int) (jobs : List SJob) :
    ∀ (nid b : Nat), ∀ s ∈ (allocate now nid b jobs).succs,
      nid ≤ s.2.id ∧ s.2.id < (allocate now nid b jobs).nextId := by
  induction jobs with
  | nil => intro nid b s hs; simp [allocate] at hs
  | cons j rest ih =>
    intro nid b s hs
    by_cases h0 : min b j.size = 0
    · simp [allocate, h0] at hs
    · by_cases hfull : min b j.size = j.size
      · rw [hfull] at h0
        by_cases hper : j.period > 0
        · simp only [allocate, h0, hfull, hper, if_true, if_false, ite_true, ite_false,
            if_pos, List.mem_cons, if_neg, not_false_iff] at hs ⊢
          rcases hs with hs | hs
          · subst hs
            refine ⟨le_refl _, lt_of_lt_of_le (Nat.lt_succ_self nid) ?_⟩
            exact allocate_nextId_le now rest (nid + 1) _
          · have h2 := ih (nid + 1) _ s hs
            exact ⟨le_trans (Nat.le_succ nid) h2.1, h2.2⟩
        · simp only [allocate, h0, hfull, hper, ite_true, ite_false, if_neg,
            not_false_iff, if_pos] at hs ⊢
          exact ih nid _ s hs
      · simp only [allocate, h0, hfull, ite_false, if_neg, not_false_iff] at hs ⊢
        exact ih nid _ s hs

/-- Every successor's origin id (its first component) is the id of a scanned job. -/
theorem allocate_succs_fst_mem (now : Int) (jobs : List SJob) :
    ∀ (nid b : Nat), ∀ s ∈ (allocate now nid b jobs).succs, s.1 ∈ jobs.map SJob.id := by
  induction jobs with
  | nil => intro nid b s hs; simp [allocate] at hs
  | cons j rest ih =>
    intro nid b s hs
    simp only [allocate] at hs
    rw [List.map_cons]
    split at hs
    · simp at hs
    · split at hs
      · split at hs
        · rw [List.mem_cons] at hs
          rcases hs with hs | hs
          · simp [hs]
          · exact List.mem_cons_of_mem _ (ih (nid + 1) _ s hs)
        · simp only at hs
          exact List.mem_cons_of_mem _ (ih nid _ s hs)
      · simp only at hs
        exact List.mem_cons_of_mem _ (ih nid _ s hs)

/-- When the scanned jobs have pairwise distinct ids, so do the grant records. -/
theorem allocate_grants_fst_nodup (now : Int) (jobs : List SJob) :
    ∀ (nid b : Nat), (jobs.map SJob.id).Nodup →
      ((allocate now nid b jobs).grants.map Prod.fst).Nodup := by
  induction jobs with
  | nil => intro nid b _; simp [allocate]
  | cons j rest ih =>
    intro nid b hnd
    rw [List.map_cons, List.nodup_cons] at hnd
    simp only [allocate]
    split
    · simp
    · split
      · split
        · simp only [List.map_cons, List.nodup_cons]
          refine ⟨fun hmem => ?_, ih (nid + 1) _ hnd.2⟩
          rw [List.mem_map] at hmem
          obtain ⟨g, hg, hgid⟩ := hmem
          exact hnd.1 (hgid ▸ allocate_grants_mem now rest (nid + 1) _ g hg)
        · simp only [List.map_cons, List.nodup_cons]
          refine ⟨fun hmem => ?_, ih nid _ hnd.2⟩
          rw [List.mem_map] at hmem
          obtain ⟨g, hg, hgid⟩ := hmem
          exact hnd.1 (hgid ▸ allocate_grants_mem now rest nid _ g hg)
      · simp only [List.map_cons, List.nodup_cons]
        refine ⟨fun hmem => ?_, ih nid _ hnd.2⟩
        rw [List.mem_map] at hmem
        obtain ⟨g, hg, hgid⟩ := hmem
        exact hnd.1 (hgid ▸ allocate_grants_mem now rest nid _ g hg)

/-- The minislots granted by one allocation scan never exceed the budget. -/
theorem allocate_sum_le (now : Int) (jobs : List SJob) :
    ∀ (nid b : Nat), sumGrants (allocate now nid b jobs).grants ≤ b := by
  induction jobs with
  | nil => intro nid b; simp [allocate, sumGrants]
  | cons j rest ih =>
    intro nid b
    simp only [allocate]
    split
    · simp [sumGrants]
    · split
      · split
        · have h2 := ih (nid + 1) (b - min b j.size)
          simp only [sumGrants, List.map_cons, List.sum_cons] at h2 ⊢
          omega
        · have h2 := ih nid (b - min b j.size)
          simp only [sumGrants, List.map_cons, List.sum_cons] at h2 ⊢
          omega
      · have h2 := ih nid (b - min b j.size)
        simp only [sumGrants, List.map_cons, List.sum_cons] at h2 ⊢
        omega

/-- Membership is preserved by the snapshot ordering. -/
theorem mem_sortJobs {k : SJob} {l : List SJob} : k ∈ sortJobs l ↔ k ∈ l :=
  (sortJobs_perm l).mem_iff

/-- Any id that no survivor of the sweep carries, and that is below the round's fresh
    id, receives no grant this round, is absent from the carried-over pool, and stays
    below the next fresh id; moreover ids in the carried-over pool stay bounded. -/
theorem runRound_fresh (now : Int) (budget : Nat) (pool : List SJob) (nid : Nat)
    (x : Nat)
    (hxsurv : ∀ k ∈ pool, ¬(k.deadline < now) → k.id ≠ x)
    (hlt : x < nid)
    (hbound : ∀ k ∈ pool, k.id < nid) :
    (∀ g ∈ (runRound now budget pool nid).grants, g.1 ≠ x) ∧
    x ∉ (runRound now budget pool nid).pool.map SJob.id ∧
    x < (runRound now budget pool nid).nextId ∧
    (∀ k ∈ (runRound now budget pool nid).pool, k.id < (runRound now budget pool nid).nextId) := by
  have hsurv : ∀ y, y ∈ sortJobs (pool.filter (fun j => !(decide (j.deadline < now)))) →
      y ∈ pool ∧ ¬(y.deadline < now) := by
    intro y hy
    rw [mem_sortJobs] at hy
    rw [List.mem_filter] at hy
    refine ⟨hy.1, ?_⟩
    have h2 := hy.2
    simpa using h2
  simp only [runRound]
  refine ⟨?_, ?_, ?_, ?_⟩
  · intro g hg hgx
    have h1 := allocate_grants_mem now _ nid budget g hg
    rw [List.mem_map] at h1
    obtain ⟨y, hy, hyid⟩ := h1
    have h2 := hsurv y hy
    exact hxsurv y h2.1 h2.2 (by rw [hyid, hgx])
  · intro hmem
    rw [List.mem_map] at hmem
    obtain ⟨k, hk, hkid⟩ := hmem
    rw [List.mem_append] at hk
    rcases hk with hk | hk
    · have h1 := allocate_pending_mem now _ nid budget k hk
      rw [List.mem_map] at h1
      obtain ⟨y, hy, hyid⟩ := h1
      have h2 := hsurv y hy
      exact hxsurv y h2.1 h2.2 (by rw [hyid, hkid])
    · rw [List.mem_map] at hk
      obtain ⟨s, hs, hsk⟩ := hk
      have h1 := (allocate_succs_id_bound now _ nid budget s hs).1
      rw [hsk, hkid] at h1
      omega
  · exact lt_of_lt_of_le hlt (allocate_nextId_le now _ nid budget)
  · intro k hk
    rw [List.mem_append] at hk
    rcases hk with hk | hk
    · have h1 := allocate_pending_mem now _ nid budget k hk
      rw [List.mem_map] at h1
      obtain ⟨y, hy, hyid⟩ := h1
      have h2 := hsurv y hy
      have h3 := hbound y h2.1
      rw [hyid] at h3
      exact lt_of_lt_of_le h3 (allocate_nextId_le now _ nid budget)
    · rw [List.mem_map] at hk
      obtain ⟨s, hs, hsk⟩ := hk
      have h1 := (allocate_succs_id_bound now _ nid budget s hs).2
      rw [hsk] at h1
      exact h1

/-- An id absent from the pool and below the fresh-id counter never reappears in any
    later round's grants. -/
theorem runRounds_avoid (x : Nat) (rounds : List (Int × Nat)) :
    ∀ (pool : List SJob) (nid : Nat),
      x ∉ pool.map SJob.id → x < nid → (∀ k ∈ pool, k.id < nid) →
      ∀ gs ∈ runRounds pool nid rounds, ∀ g ∈ gs, g.1 ≠ x := by
  induction rounds with
  | nil => intro pool nid _ _ _ gs hgs; simp [runRounds] at hgs
  | cons rb rest ih =>
    intro pool nid hx hlt hbound gs hgs g hg
    have hxsurv : ∀ k ∈ pool, ¬(k.deadline < rb.1) → k.id ≠ x := by
      intro k hk _ hkx
      exact hx (hkx ▸ List.mem_map_of_mem SJob.id hk)
    have hfresh := runRound_fresh rb.1 rb.2 pool nid x hxsurv hlt hbound
    simp only [runRounds] at hgs
    rw [List.mem_cons] at hgs
    rcases hgs with hgs | hgs
    · exact hfresh.1 g (hgs ▸ hg)
    · exact ih _ _ hfresh.2.1 hfresh.2.2.1 hfresh.2.2.2 gs hgs g hg

/-! ## Claim theorems about the scheduler round -/

/-- C4: for every round of the Scheduler — any pending job set, any `now`, any
    `budget` — the sum of all minislots granted in that round is at most the budget,
    regardless of the number or sizes of pending jobs. -/
theorem budget_conservation (now : Int) (budget : Nat) (pool : List SJob) (nextId : Nat) :
    sumGrants (runRound now budget pool nextId).grants ≤ budget := by
  simp only [runRound]
  exact allocate_sum_le now _ nextId budget

/-- C5: a pending job whose deadline has passed (`deadline < now`) is removed by the
    deadline sweep before allocation: it triggers exactly one `DeadlineMissed`
    notification this round, receives no grant this round, and its id never appears
    in any subsequent round's grants (no resurrection).  The hypotheses say that the
    pool's ids are distinct and below the fresh-id counter, which is the state
    `submit` maintains. -/
theorem deadline_sweep_finality (now : Int) (budget : Nat) (pool : List SJob)
    (nextId : Nat) (j : SJob) (hj : j ∈ pool) (hmiss : j.deadline < now)
    (hbound : ∀ k ∈ pool, k.id < nextId) (hnd : (pool.map SJob.id).Nodup) :
    (runRound now budget pool nextId).missed.count j.id = 1 ∧
    (∀ g ∈ (runRound now budget pool nextId).grants, g.1 ≠ j.id) ∧
    ∀ rounds : List (Int × Nat),
      ∀ gs ∈ runRounds (runRound now budget pool nextId).pool
          (runRound now budget pool nextId).nextId rounds,
        ∀ g ∈ gs, g.1 ≠ j.id := by
  have hinj := List.inj_on_of_nodup_map hnd
  have hxsurv : ∀ k ∈ pool, ¬(k.deadline < now) → k.id ≠ j.id := by
    intro k hk hks hkid
    exact hks ((hinj hk hj hkid) ▸ hmiss)
  have hfresh := runRound_fresh now budget pool nextId j.id hxsurv (hbound j hj) hbound
  refine ⟨?_, hfresh.1, ?_⟩
  · simp only [runRound]
    have hjf : j ∈ pool.filter (fun k => decide (k.deadline < now)) :=
      List.mem_filter.mpr ⟨hj, by simpa using hmiss⟩
    have hmem : j.id ∈ (pool.filter (fun k => decide (k.deadline < now))).map SJob.id :=
      List.mem_map_of_mem SJob.id hjf
    have hsub : ((pool.filter (fun k => decide (k.deadline < now))).map SJob.id).Sublist
        (pool.map SJob.id) := (List.filter_sublist pool).map SJob.id
    exact List.count_eq_one_of_mem (List.Nodup.sublist hsub hnd) hmem
  · intro rounds gs hgs g hg
    exact runRounds_avoid j.id rounds _ _ hfresh.2.1 hfresh.2.2.1 hfresh.2.2.2 gs hgs g hg

/-- Witness for C5: a single job with deadline 5 evaluated at `now = 10` is reported
    missed exactly once (the scenario-C shape of the spec). -/
theorem deadline_sweep_finality_witness :
    (runRound 10 100 [⟨0, 0, 0, 5, 3, .LOW, 0, 0⟩] 1).missed.count 0 = 1 :=
  (deadline_sweep_finality 10 100 [⟨0, 0, 0, 5, 3, .LOW, 0, 0⟩] 1
    ⟨0, 0, 0, 5, 3, .LOW, 0, 0⟩ (by simp) (by decide) (by decide) (by decide)).1

/-! ## Unfolding equations for one allocation step -/

/-- Budget exhausted (or empty job) at the head of the scan: stop. -/
theorem allocate_cons_stop {now : Int} {nid b : Nat} {j : SJob} {rest : List SJob}
    (h0 : min b j.size = 0) :
    allocate now nid b (j :: rest) = ⟨[], [], j :: rest, nid⟩ := by
  simp [allocate, h0]

/-- Full grant of a periodic head job: grant, retire, enqueue the successor. -/
theorem allocate_cons_full_per {now : Int} {nid b : Nat} {j : SJob} {rest : List SJob}
    (h0 : j.size ≠ 0) (hfull : min b j.size = j.size) (hper : 0 < j.period) :
    allocate now nid b (j :: rest) =
      ⟨(j.id, j.size) :: (allocate now (nid + 1) (b - j.size) rest).grants,
       (j.id, succOf now nid j) :: (allocate now (nid + 1) (b - j.size) rest).succs,
       (allocate now (nid + 1) (b - j.size) rest).pending,
       (allocate now (nid + 1) (b - j.size) rest).nextId⟩ := by
  simp [allocate, hfull, h0, hper]

/-- Full grant of an aperiodic head job: grant and retire, no successor. -/
theorem allocate_cons_full_aper {now : Int} {nid b : Nat} {j : SJob} {rest : List SJob}
    (h0 : j.size ≠ 0) (hfull : min b j.size = j.size) (hper : ¬ 0 < j.period) :
    allocate now nid b (j :: rest) =
      ⟨(j.id, j.size) :: (allocate now nid (b - j.size) rest).grants,
       (allocate now nid (b - j.size) rest).succs,
       (allocate now nid (b - j.size) rest).pending,
       (allocate now nid (b - j.size) rest).nextId⟩ := by
  simp [allocate, hfull, h0, hper]

/-- Partial grant of the head job: grant `min b j.size`, decrement the size, keep
    the job pending. -/
theorem allocate_cons_trimmed {now : Int} {nid b : Nat} {j : SJob} {rest : List SJob}
    (h0 : ¬ min b j.size = 0) (hfull : ¬ min b j.size = j.size) :
    allocate now nid b (j :: rest) =
      ⟨(j.id, min b j.size) :: (allocate now nid (b - min b j.size) rest).grants,
       (allocate now nid (b - min b j.size) rest).succs,
       { j with size := j.size - min b j.size } ::
         (allocate now nid (b - min b j.size) rest).pending,
       (allocate now nid (b - min b j.size) rest).nextId⟩ := by
  simp [allocate, h0, hfull]

/-- A successor whose origin field names `j`'s id can only come from a full grant of
    the periodic job `j`, and it carries the shifted release time, the shifted
    deadline and the provisioned size. -/
theorem allocate_succ_origin (now : Int) (jobs : List SJob) :
    ∀ (nid b : Nat) (j : SJob), j ∈ jobs → (jobs.map SJob.id).Nodup →
      ∀ s ∈ (allocate now nid b jobs).succs, s.1 = j.id →
        0 < j.period ∧ (j.id, j.size) ∈ (allocate now nid b jobs).grants ∧
        s.2.releaseTime = now + j.period ∧
        s.2.deadline = (now + j.period) + (j.deadline - j.releaseTime) ∧
        s.2.size = j.provision := by
  induction jobs with
  | nil => intro nid b j hj; simp at hj
  | cons k rest ih =>
    intro nid b j hj hnd s hs hsid
    rw [List.map_cons, List.nodup_cons] at hnd
    by_cases h0 : min b k.size = 0
    · rw [show (allocate now nid b (k :: rest)).succs = [] from by
        rw [allocate_cons_stop h0]] at hs
      simp at hs
    · by_cases hfull : min b k.size = k.size
      · have h0' : k.size ≠ 0 := fun h => h0 (hfull.trans h)
        by_cases hkper : 0 < k.period
        · have hsucc : (allocate now nid b (k :: rest)).succs =
              (k.id, succOf now nid k) :: (allocate now (nid + 1) (b - k.size) rest).succs := by
            rw [allocate_cons_full_per h0' hfull hkper]
          have hgr : (allocate now nid b (k :: rest)).grants =
              (k.id, k.size) :: (allocate now (nid + 1) (b - k.size) rest).grants := by
            rw [allocate_cons_full_per h0' hfull hkper]
          rw [hsucc] at hs
          rw [hgr]
          rcases List.mem_cons.mp hs with hs1 | hs1
          · rcases List.mem_cons.mp hj with hjk | hjr
            · subst hjk
              subst hs1
              exact ⟨hkper, List.mem_cons_self _ _, rfl, rfl, rfl⟩
            · have hkj : k.id = j.id := by rw [← hsid, hs1]
              exact absurd (by rw [hkj]; exact List.mem_map_of_mem SJob.id hjr) hnd.1
          · rcases List.mem_cons.mp hj with hjk | hjr
            · subst hjk
              have h1 := allocate_succs_fst_mem now rest (nid + 1) _ s hs1
              rw [hsid] at h1
              exact absurd h1 hnd.1
            · have h2 := ih (nid + 1) _ j hjr hnd.2 s hs1 hsid
              exact ⟨h2.1, List.mem_cons_of_mem _ h2.2.1, h2.2.2⟩
        · have hsucc : (allocate now nid b (k :: rest)).succs =
              (allocate now nid (b - k.size) rest).succs := by
            rw [allocate_cons_full_aper h0' hfull hkper]
          have hgr : (allocate now nid b (k :: rest)).grants =
              (k.id, k.size) :: (allocate now nid (b - k.size) rest).grants := by
            rw [allocate_cons_full_aper h0' hfull hkper]
          rw [hsucc] at hs
          rw [hgr]
          rcases List.mem_cons.mp hj with hjk | hjr
          · subst hjk
            have h1 := allocate_succs_fst_mem now rest nid _ s hs
            rw [hsid] at h1
            exact absurd h1 hnd.1
          · have h2 := ih nid _ j hjr hnd.2 s hs hsid
            exact ⟨h2.1, List.mem_cons_of_mem _ h2.2.1, h2.2.2⟩
      · have hsucc : (allocate now nid b (k :: rest)).succs =
            (allocate now nid (b - min b k.size) rest).succs := by
          rw [allocate_cons_trimmed h0 hfull]
        have hgr : (allocate now nid b (k :: rest)).grants =
            (k.id, min b k.size) :: (allocate now nid (b - min b k.size) rest).grants := by
          rw [allocate_cons_trimmed h0 hfull]
        rw [hsucc] at hs
        rw [hgr]
        rcases List.mem_cons.mp hj with hjk | hjr
        · subst hjk
          have h1 := allocate_succs_fst_mem now rest nid _ s hs
          rw [hsid] at h1
          exact absurd h1 hnd.1
        · have h2 := ih nid _ j hjr hnd.2 s hs hsid
          exact ⟨h2.1, List.mem_cons_of_mem _ h2.2.1, h2.2.2⟩

/-- A periodic job that is fully granted gets exactly one successor enqueued. -/
theorem allocate_succ_count (now : Int) (jobs : List SJob) :
    ∀ (nid b : Nat) (j : SJob), j ∈ jobs → (jobs.map SJob.id).Nodup →
      (j.id, j.size) ∈ (allocate now nid b jobs).grants → 0 < j.period →
      (allocate now nid b jobs).succs.countP (fun s => decide (s.1 = j.id)) = 1 := by
  induction jobs with
  | nil => intro nid b j hj; simp at hj
  | cons k rest ih =>
    intro nid b j hj hnd hg hper
    rw [List.map_cons, List.nodup_cons] at hnd
    by_cases h0 : min b k.size = 0
    · rw [show (allocate now nid b (k :: rest)).grants = [] from by
        rw [allocate_cons_stop h0]] at hg
      simp at hg
    · by_cases hfull : min b k.size = k.size
      · have h0' : k.size ≠ 0 := fun h => h0 (hfull.trans h)
        by_cases hkper : 0 < k.period
        · have hsucc : (allocate now nid b (k :: rest)).succs =
              (k.id, succOf now nid k) :: (allocate now (nid + 1) (b - k.size) rest).succs := by
            rw [allocate_cons_full_per h0' hfull hkper]
          have hgr : (allocate now nid b (k :: rest)).grants =
              (k.id, k.size) :: (allocate now (nid + 1) (b - k.size) rest).grants := by
            rw [allocate_cons_full_per h0' hfull hkper]
          rw [hsucc]
          rw [hgr] at hg
          rcases List.mem_cons.mp hj with hjk | hjr
          · subst hjk
            have hnone : ((allocate now (nid + 1) (b - j.size) rest).succs.countP
                (fun s => decide (s.1 = j.id))) = 0 := by
              rw [List.countP_eq_zero]
              intro s hs
              have h1 := allocate_succs_fst_mem now rest (nid + 1) _ s hs
              simp only [decide_eq_true_eq]
              intro heq
              rw [heq] at h1
              exact hnd.1 h1
            rw [List.countP_cons_of_pos]
            · rw [hnone]
            · simp
          · rcases List.mem_cons.mp hg with hgh | hgt
            · have hjid : j.id = k.id := congrArg Prod.fst hgh
              exact absurd (by rw [← hjid]; exact List.mem_map_of_mem SJob.id hjr) hnd.1
            · rw [List.countP_cons_of_neg]
              · exact ih (nid + 1) _ j hjr hnd.2 hgt hper
              · simp only [decide_eq_true_eq]
                intro heq
                exact hnd.1 (by rw [heq]; exact List.mem_map_of_mem SJob.id hjr)
        · have hsucc : (allocate now nid b (k :: rest)).succs =
              (allocate now nid (b - k.size) rest).succs := by
            rw [allocate_cons_full_aper h0' hfull hkper]
          have hgr : (allocate now nid b (k :: rest)).grants =
              (k.id, k.size) :: (allocate now nid (b - k.size) rest).grants := by
            rw [allocate_cons_full_aper h0' hfull hkper]
          rw [hsucc]
          rw [hgr] at hg
          rcases List.mem_cons.mp hj with hjk | hjr
          · subst hjk
            exact absurd hper hkper
          · rcases List.mem_cons.mp hg with hgh | hgt
            · have hjid : j.id = k.id := congrArg Prod.fst hgh
              exact absurd (by rw [← hjid]; exact List.mem_map_of_mem SJob.id hjr) hnd.1
            · exact ih nid _ j hjr hnd.2 hgt hper
      · have hsucc : (allocate now nid b (k :: rest)).succs =
            (allocate now nid (b - min b k.size) rest).succs := by
          rw [allocate_cons_trimmed h0 hfull]
        have hgr : (allocate now nid b (k :: rest)).grants =
            (k.id, min b k.size) :: (allocate now nid (b - min b k.size) rest).grants := by
          rw [allocate_cons_trimmed h0 hfull]
        rw [hsucc]
        rw [hgr] at hg
        rcases List.mem_cons.mp hj with hjk | hjr
        · subst hjk
          rcases List.mem_cons.mp hg with hgh | hgt
          · have hsz : j.size = min b j.size := congrArg Prod.snd hgh
            exact absurd hsz.symm hfull
          · have h1 := allocate_grants_mem now rest nid _ _ hgt
            exact absurd h1 hnd.1
        · rcases List.mem_cons.mp hg with hgh | hgt
          · have hjid : j.id = k.id := congrArg Prod.fst hgh
            exact absurd (by rw [← hjid]; exact List.mem_map_of_mem SJob.id hjr) hnd.1
          · exact ih nid _ j hjr hnd.2 hgt hper

/-- The ordered snapshot of the survivors keeps ids pairwise distinct. -/
theorem survivors_nodup (now : Int) (pool : List SJob) (hnd : (pool.map SJob.id).Nodup) :
    ((sortJobs (pool.filter (fun k => !decide (k.deadline < now)))).map SJob.id).Nodup := by
  have h1 : ((pool.filter (fun k => !decide (k.deadline < now))).map SJob.id).Sublist
      (pool.map SJob.id) := (List.filter_sublist pool).map SJob.id
  have h2 := List.Nodup.sublist h1 hnd
  have h3 : ((sortJobs (pool.filter (fun k => !decide (k.deadline < now)))).map SJob.id).Perm
      ((pool.filter (fun k => !decide (k.deadline < now))).map SJob.id) :=
    (sortJobs_perm _).map SJob.id
  exact h3.nodup_iff.mpr h2

/-- A pending job that survives the sweep appears in the ordered snapshot. -/
theorem mem_ordered (now : Int) (pool : List SJob) (j : SJob) (hj : j ∈ pool)
    (hsurv : ¬ j.deadline < now) :
    j ∈ sortJobs (pool.filter (fun k => !decide (k.deadline < now))) :=
  mem_sortJobs.mpr (List.mem_filter.mpr ⟨hj, by simpa using hsurv⟩)

/-- C6: in a round at time `now`, a periodic job (`period > 0`) that is fully
    granted gets exactly one successor enqueued, and every successor attributed to
    `j` carries `releaseTime' = now + period`,
    `deadline' = releaseTime' + (deadline − releaseTime)` and the provisioned size;
    conversely a successor exists only for a full grant of a periodic job, so an
    aperiodic job or a partially granted job produces no successor. -/
theorem periodic_recurrence (now : Int) (budget : Nat) (pool : List SJob) (nextId : Nat)
    (j : SJob) (hj : j ∈ pool) (hsurv : ¬ j.deadline < now)
    (hnd : (pool.map SJob.id).Nodup) :
    ((j.id, j.size) ∈ (runRound now budget pool nextId).grants → 0 < j.period →
        (runRound now budget pool nextId).succs.countP (fun s => decide (s.1 = j.id)) = 1) ∧
    (∀ s ∈ (runRound now budget pool nextId).succs, s.1 = j.id →
        0 < j.period ∧ (j.id, j.size) ∈ (runRound now budget pool nextId).grants ∧
        s.2.releaseTime = now + j.period ∧
        s.2.deadline = (now + j.period) + (j.deadline - j.releaseTime) ∧
        s.2.size = j.provision) ∧
    (∀ g, (j.id, g) ∈ (runRound now budget pool nextId).grants → g ≠ j.size →
        ∀ s ∈ (runRound now budget pool nextId).succs, s.1 ≠ j.id) := by
  have hordnd := survivors_nodup now pool hnd
  have hjord := mem_ordered now pool j hj hsurv
  simp only [runRound]
  refine ⟨?_, ?_, ?_⟩
  · intro hg hper
    exact allocate_succ_count now _ nextId budget j hjord hordnd hg hper
  · intro s hs hsid
    exact allocate_succ_origin now _ nextId budget j hjord hordnd s hs hsid
  · intro g hgmem hgne s hs hsid
    have horig := allocate_succ_origin now _ nextId budget j hjord hordnd s hs hsid
    have hndg := allocate_grants_fst_nodup now _ nextId budget hordnd
    have hinj := List.inj_on_of_nodup_map hndg
    exact hgne (congrArg Prod.snd (hinj hgmem horig.2.1 rfl))

/-- Witness for C6: a periodic job of period 5 fully granted at time 0 produces
    exactly one successor. -/
theorem periodic_recurrence_witness :
    (runRound 0 100 [⟨0, 0, 5, 10, 4, .HIGH, 7, 6⟩] 1).succs.countP
      (fun s => decide (s.1 = 0)) = 1 :=
  (periodic_recurrence 0 100 [⟨0, 0, 5, 10, 4, .HIGH, 7, 6⟩] 1 ⟨0, 0, 5, 10, 4, .HIGH, 7, 6⟩
    (by simp) (by decide) (by decide)).1 (by decide) (by decide)

/-- With no remaining budget the scan grants nothing and touches nothing. -/
theorem allocate_zero (now : Int) (nid : Nat) (jobs : List SJob) :
    allocate now nid 0 jobs = ⟨[], [], jobs, nid⟩ := by
  cases jobs with
  | nil => rfl
  | cons j rest => exact allocate_cons_stop (by simp)

/-- C7: each job reached by the greedy scan is granted exactly
    `g = min(remainingBudget, size)`: if `g = 0` the scan stops and every job stays
    pending untouched; if `g > 0` the head grant record is `(id, g)`; a job whose
    size fits the remaining budget is fully granted in one shot and does not remain
    pending; a partial grant reduces the size by the grant, leaves the deadline
    unchanged, keeps the job pending, and exhausts the round's budget so that the
    grant list ends there. -/
theorem greedy_allocation_step (now : Int) (nextId budget : Nat) (j : SJob)
    (rest : List SJob) :
    (min budget j.size = 0 →
       (allocate now nextId budget (j :: rest)).grants = [] ∧
       (allocate now nextId budget (j :: rest)).pending = j :: rest) ∧
    (0 < min budget j.size →
       (allocate now nextId budget (j :: rest)).grants.head? =
         some (j.id, min budget j.size)) ∧
    (0 < j.size → j.size ≤ budget →
       (allocate now nextId budget (j :: rest)).grants.head? = some (j.id, j.size) ∧
       ∀ k ∈ (allocate now nextId budget (j :: rest)).pending, k.id ∈ rest.map SJob.id) ∧
    (0 < budget → budget < j.size →
       (allocate now nextId budget (j :: rest)).grants = [(j.id, budget)] ∧
       (allocate now nextId budget (j :: rest)).pending =
         { j with size := j.size - budget } :: rest) := by
  refine ⟨?_, ?_, ?_, ?_⟩
  · intro h0
    rw [allocate_cons_stop h0]
    exact ⟨rfl, rfl⟩
  · intro hpos
    have h0 : ¬ min budget j.size = 0 := Nat.pos_iff_ne_zero.mp hpos
    by_cases hfull : min budget j.size = j.size
    · have h0' : j.size ≠ 0 := fun h => h0 (hfull.trans h)
      by_cases hper : 0 < j.period
      · rw [allocate_cons_full_per h0' hfull hper, hfull]
        rfl
      · rw [allocate_cons_full_aper h0' hfull hper, hfull]
        rfl
    · rw [allocate_cons_trimmed h0 hfull]
      rfl
  · intro hsz hle
    have hfull : min budget j.size = j.size := min_eq_right hle
    have h0' : j.size ≠ 0 := Nat.pos_iff_ne_zero.mp hsz
    by_cases hper : 0 < j.period
    · constructor
      · rw [allocate_cons_full_per h0' hfull hper]
        rfl
      · intro k hk
        have hpend : (allocate now nextId budget (j :: rest)).pending =
            (allocate now (nextId + 1) (budget - j.size) rest).pending := by
          rw [allocate_cons_full_per h0' hfull hper]
        rw [hpend] at hk
        exact allocate_pending_mem now rest (nextId + 1) _ k hk
    · constructor
      · rw [allocate_cons_full_aper h0' hfull hper]
        rfl
      · intro k hk
        have hpend : (allocate now nextId budget (j :: rest)).pending =
            (allocate now nextId (budget - j.size) rest).pending := by
          rw [allocate_cons_full_aper h0' hfull hper]
        rw [hpend] at hk
        exact allocate_pending_mem now rest nextId _ k hk
  · intro hbpos hlt
    have hmin : min budget j.size = budget := min_eq_left (le_of_lt hlt)
    have h0 : ¬ min budget j.size = 0 := by rw [hmin]; exact Nat.pos_iff_ne_zero.mp hbpos
    have hfull : ¬ min budget j.size = j.size := by rw [hmin]; omega
    have hrec : budget - min budget j.size = 0 := by rw [hmin]; omega
    constructor
    · have hgr : (allocate now nextId budget (j :: rest)).grants =
          (j.id, min budget j.size) ::
            (allocate now nextId (budget - min budget j.size) rest).grants := by
        rw [allocate_cons_trimmed h0 hfull]
      rw [hgr, hrec, allocate_zero, hmin]
    · have hpend : (allocate now nextId budget (j :: rest)).pending =
          { j with size := j.size - min budget j.size } ::
            (allocate now nextId (budget - min budget j.size) rest).pending := by
        rw [allocate_cons_trimmed h0 hfull]
      rw [hpend, hrec, allocate_zero, hmin]

/-- Witness for C7: with remaining budget 10, a job of size 4 at the head of the
    scan is granted exactly 4 in one shot. -/
theorem greedy_allocation_step_witness :
    (allocate 0 1 10 [⟨0, 0, 0, 100, 4, .LOW, 0, 0⟩]).grants.head? = some (0, 4) :=
  ((greedy_allocation_step 0 1 10 ⟨0, 0, 0, 100, 4, .LOW, 0, 0⟩ []).2.2.1
    (by decide) (by decide)).1

/-- C3: the Ordering's primary key gives higher-precedence tiers priority: with
    priorities taken from the tier ranking (HIGH before INTERMEDIATE before LOW),
    for any two jobs of distinct tiers the comparator from the source orders the
    higher-precedence one first and not conversely; consequently, in a round where a
    HIGH job and a LOW job are the pending pool and the budget covers the HIGH job's
    size, the HIGH job is fully granted by the first grant record of the round,
    before any minislot reaches the LOW job. -/
theorem tier_precedence :
    (∀ (ta tb : Tier) (a b : PriorityUlJob),
       ta.precedes tb → a.priority = ta.rank → b.priority = tb.rank →
       SortProcess a b = true ∧ SortProcess b a = false) ∧
    (∀ (hjob ljob : SJob) (now : Int) (budget nextId : Nat),
       hjob.tier = Tier.HIGH → ljob.tier = Tier.LOW → 0 < hjob.size →
       hjob.size ≤ budget → ¬ hjob.deadline < now → ¬ ljob.deadline < now →
       (runRound now budget [ljob, hjob] nextId).grants.head? =
         some (hjob.id, hjob.size)) := by
  constructor
  · intro ta tb a b hprec ha hb
    unfold Tier.precedes at hprec
    constructor
    · unfold SortProcess
      rw [ha, hb]
      simp [hprec]
    · unfold SortProcess
      rw [ha, hb]
      have h1 : ¬ tb.rank < ta.rank := lt_asymm hprec
      have h2 : tb.rank ≠ ta.rank := (ne_of_lt hprec).symm
      simp [h1, h2]
  · intro hjob ljob now budget nextId hh hl hsz hle hdh hdl
    have hfil : (([ljob, hjob] : List SJob).filter (fun k => !decide (k.deadline < now))) =
        [ljob, hjob] := by
      simp [List.filter, hdh, hdl]
    have hsless : sLess hjob ljob = true := by
      simp [sLess, hh, hl, Tier.rank]
    have hsle : sLe ljob hjob = false := by
      simp [sLe, hsless]
    have hsort : sortJobs [ljob, hjob] = [hjob, ljob] := by
      simp [sortJobs, insertLe, hsle]
    have hmin : min budget hjob.size = hjob.size := min_eq_right hle
    have h0' : hjob.size ≠ 0 := Nat.pos_iff_ne_zero.mp hsz
    simp only [runRound]
    rw [hfil, hsort]
    by_cases hper : 0 < hjob.period
    · rw [allocate_cons_full_per h0' hmin hper]
      rfl
    · rw [allocate_cons_full_aper h0' hmin hper]
      rfl

/-- Witness for C3: a HIGH-ranked job sorts before a LOW-ranked one, and in a
    two-job round (scenario A of the spec: budget 100, HIGH size 40, LOW size 90)
    the first grant is the full HIGH grant. -/
theorem tier_precedence_witness :
    SortProcess ⟨Tier.rank .HIGH, ⟨0, 0, 10, 4, .DATA, ⟨⟨5⟩⟩⟩⟩
        ⟨Tier.rank .LOW, ⟨0, 0, 10, 9, .DATA, ⟨⟨3⟩⟩⟩⟩ = true ∧
    (runRound 0 100 [⟨4, 0, 0, 50, 90, .LOW, 0, 0⟩, ⟨3, 0, 0, 50, 40, .HIGH, 0, 0⟩]
        5).grants.head? = some (3, 40) := by
  constructor
  · exact (tier_precedence.1 .HIGH .LOW ⟨Tier.rank .HIGH, ⟨0, 0, 10, 4, .DATA, ⟨⟨5⟩⟩⟩⟩
      ⟨Tier.rank .LOW, ⟨0, 0, 10, 9, .DATA, ⟨⟨3⟩⟩⟩⟩ (by decide) rfl rfl).1
  · exact tier_precedence.2 ⟨3, 0, 0, 50, 40, .HIGH, 0, 0⟩ ⟨4, 0, 0, 50, 90, .LOW, 0, 0⟩
      0 100 5 rfl rfl (by decide) (by decide) (by decide) (by decide)

/-- C8: `submit` rejects exactly the malformed descriptors: one with `size ≤ 0` or
    `deadline < releaseTime` fails synchronously with `InvalidJobError` (and no pool
    is produced, so the job is never inserted); one with `size > 0` and
    `deadline ≥ releaseTime` is inserted into the pool and receives the stable
    fresh id. -/
theorem submit_validation (pool : List SJob) (nextId : Nat) (d : JobDescriptor) :
    (d.size ≤ 0 ∨ d.deadline < d.releaseTime →
       submit pool nextId d = Except.error SubmitError.InvalidJobError) ∧
    (0 < d.size → d.releaseTime ≤ d.deadline →
       submit pool nextId d =
         Except.ok (nextId,
           ⟨nextId, d.releaseTime, d.period, d.deadline, d.size.toNat, d.tier,
            d.backlog, d.provision⟩ :: pool,
           nextId + 1)) := by
  constructor
  · intro h
    unfold submit
    rw [if_pos h]
  · intro h1 h2
    have h3 : ¬ (d.size ≤ 0 ∨ d.deadline < d.releaseTime) := by
      push_neg
      exact ⟨h1, h2⟩
    unfold submit
    rw [if_neg h3]

/-- Witness for C8: a well-formed descriptor (size 5, deadline 7 ≥ release 0) is
    accepted and inserted with the fresh id 0. -/
theorem submit_validation_witness :
    submit [] 0 ⟨0, 0, 7, 5, .LOW, 2, 1⟩ =
      Except.ok (0, [⟨0, 0, 0, 7, 5, .LOW, 2, 1⟩], 1) :=
  (submit_validation [] 0 ⟨0, 0, 7, 5, .LOW, 2, 1⟩).2 (by decide) (by decide)

end UlSched
